import Mathlib

/-!
Guestbook service (`guestbook/main.go`): cache-aside read and write handlers.

A shallow embedding of the request handlers of `guestbook/main.go`:

* `strings.Split` / `strings.Join` of the Go standard library, over character lists and
  lifted to `String`;
* the relational table `guestbooks` as the list of its rows in insertion (ID) order;
* the Redis list cache as a map from key to an optional list of members;
* `getFromDB`, `writeToDB`, `ListRangeHandler`, `ListPushHandler`, `EnvHandler`.

A Go `panic` is an `Except.error`; a handler returns its outcome together with the state of
the table and the cache at the point where it stopped.

Go strings are byte sequences; here they are sequences of characters. The separator `###` and
the `=` of the environment items are ASCII, so on UTF-8 text cutting at characters and cutting
at bytes find the same occurrences.
-/

namespace Guestbook

/-! ## Go `strings` primitives -/

/-- Go `strings.Index(s, sep)` on character lists: the position of the first occurrence of
`sep` in `s`; `none` stands for Go's `-1`. -/
def indexL (sep : List Char) : List Char → Option Nat
  | [] => if sep = [] then some 0 else none
  | c :: t => if sep.isPrefixOf (c :: t) then some 0 else (indexL sep t).map (· + 1)

/-- The loop of Go `strings.genSplit` for a non-empty separator: cut at the leftmost
occurrence of `sep`, continue after it, and end with the remainder once no occurrence is left.
The first argument bounds the number of cuts (Go bounds it by `Count(s, sep)`). -/
def genSplit (sep : List Char) : Nat → List Char → List (List Char)
  | 0, s => [s]
  | n + 1, s =>
    match indexL sep s with
    | none => [s]
    | some m => s.take m :: genSplit sep n (s.drop (m + sep.length))

/-- Go `strings.Split(s, sep)` on character lists. An empty separator explodes `s` into its
characters; otherwise the cut loop runs with a bound, `len(s)`, that is never reached
(`genSplit_fuel`). -/
def splitL (s sep : List Char) : List (List Char) :=
  if sep = [] then s.map (fun c => [c]) else genSplit sep s.length s

/-- Go `strings.Join(elems, sep)` on character lists. -/
def joinL (sep : List Char) : List (List Char) → List Char
  | [] => []
  | [a] => a
  | a :: b :: rest => a ++ sep ++ joinL sep (b :: rest)

/-- Go `strings.Split(s, sep)`. -/
def Split (s sep : String) : List String := (splitL s.data sep.data).map String.mk

/-- Go `strings.Join(elems, sep)`. -/
def Join (elems : List String) (sep : String) : String :=
  ⟨joinL sep.data (elems.map String.data)⟩

/-- `var separator = "###"`. -/
def separator : String := "###"

/-! ## State: the `guestbooks` table and the Redis list cache -/

/-- The package-level connections as the state they give access to: the rows of the table
`guestbooks` (column `values`) in insertion order, so the row with the highest `ID` is the last
one, and the Redis lists by key. One cache state stands for both pools: what is written through
`masterPool` is what a read through `slavePool` observes. -/
structure World where
  guestbooks : List String
  cache : String → Option (List String)

/-- Outcome of the adapters during one request: whether `db.Query`, `rows.Scan`, `db.Exec`
return an error, and whether the read through `slavePool` fails for a reason other than an
absent key. -/
structure Faults where
  queryErr : Bool
  scanErr : Bool
  execErr : Bool
  slaveErr : Bool
deriving DecidableEq, Repr

/-- All adapters succeed; the cache read fails on an absent key only. -/
def noFaults : Faults := ⟨false, false, false, false⟩

/-- What can go wrong: the three `panic` sites of the store helpers, the error value returned
by `list.All()`, and the run-time panic of an out-of-range index. -/
inductive Err where
  | failReadDatabase
  | failReadValues
  | failInsert
  | cacheMiss
  | indexOutOfRange
deriving DecidableEq, Repr

deriving instance DecidableEq for Except

/-- The members cached under a key; an absent key has none. -/
def cached (w : World) (key : String) : List String := (w.cache key).getD []

/-- Modelled from the spec: the Redis client library is not part of the repository.
`list.All()` ("ReadAll") returns all cached members for the key and signals an error when the
key is absent or the read tier is unreachable. -/
def All (f : Faults) (w : World) (key : String) : Except Err (List String) :=
  if f.slaveErr then .error .cacheMiss
  else match w.cache key with
    | none => .error .cacheMiss
    | some members => .ok members

/-- Modelled from the spec: the Redis client library is not part of the repository.
`list.Clear()` removes all members for the key; no-op if the key does not exist. -/
def Clear (w : World) (key : String) : World :=
  { w with cache := fun k => if k = key then none else w.cache k }

/-- Modelled from the spec: the Redis client library is not part of the repository.
`list.Add(value)` appends one member to the end of the list for the key. -/
def Add (w : World) (key value : String) : World :=
  { w with cache := fun k => if k = key then some (cached w key ++ [value]) else w.cache k }

/-! ## The store helpers -/

/-- `getFromDB`: `SELECT VALUES FROM guestbooks ORDER BY ID DESC LIMIT 1`; panics when the
query fails; for the one row returned, panics when the scan fails and otherwise returns
`strings.Split(values, separator)`; without a row returns the empty slice. -/
def getFromDB (f : Faults) (w : World) : Except Err (List String) :=
  if f.queryErr then .error .failReadDatabase
  else match w.guestbooks.getLast? with
    | some values => if f.scanErr then .error .failReadValues else .ok (Split values separator)
    | none => .ok []

/-- `writeToDB`: `data := strings.Join(arr, separator)`, then
`INSERT INTO guestbooks (values) VALUES (data)`; panics when the statement fails. -/
def writeToDB (f : Faults) (w : World) (arr : List String) : Except Err World :=
  let data := Join arr separator
  if f.execErr then .error .failInsert
  else .ok { w with guestbooks := w.guestbooks ++ [data] }

/-! ## The handlers -/

/-- `ListRangeHandler` ("Read"): read the list through the read pool; on an error take the
members from `getFromDB`, clear the list and add each member in order. The value returned is
`members`, the slice handed to `json.MarshalIndent` (which cannot fail on a slice of strings)
and written as the response body. -/
def ListRangeHandler (f : Faults) (key : String) (w : World) :
    Except Err (List String) × World :=
  match All f w key with
  | .ok members => (.ok members, w)
  | .error _ =>
    match getFromDB f w with
    | .error e => (.error e, w)
    | .ok members => (.ok members, members.foldl (fun l member => Add l key member) (Clear w key))

/-- `ListPushHandler` ("Write"): `values := getFromDB()`, `values = append(values, value)`,
`writeToDB(values)`, `list.Clear()`, then `ListRangeHandler(rw, req)`. -/
def ListPushHandler (f : Faults) (key value : String) (w : World) :
    Except Err (List String) × World :=
  match getFromDB f w with
  | .error e => (.error e, w)
  | .ok values =>
    match writeToDB f w (values ++ [value]) with
    | .error e => (.error e, w)
    | .ok w1 => ListRangeHandler f key (Clear w1 key)

/-- The writes `Write(key, e1)`, ..., `Write(key, en)` in order, all adapters succeeding: the
state they leave, or the panic of the first write that fails. -/
def writeAll (key : String) : List String → World → Except Err World
  | [], w => .ok w
  | e :: rest, w =>
    match ListPushHandler noFaults key e w with
    | (.ok _, w2) => writeAll key rest w2
    | (.error err, _) => .error err

/-- The response of `Read(key)` after the writes `Write(key, e1)`, ..., `Write(key, en)`. -/
def readAfterWrites (key : String) (entries : List String) (w : World) :
    Except Err (List String) :=
  match writeAll key entries w with
  | .ok w2 => (ListRangeHandler noFaults key w2).1
  | .error err => .error err

/-- Go `map[string]string` as an association list without repeated keys. -/
abbrev EnvMap := List (String × String)

/-- Map assignment `m[k] = v`: replaces the value of an existing key, adds a new key
otherwise. -/
def EnvMap.set (m : EnvMap) (k v : String) : EnvMap :=
  if m.any (fun p => p.1 == k) then m.map (fun p => if p.1 == k then (k, v) else p)
  else m ++ [(k, v)]

/-- Map lookup `m[k]`. -/
def EnvMap.get (m : EnvMap) (k : String) : Option String :=
  (m.find? (fun p => p.1 == k)).map Prod.snd

/-- One iteration of the loop of `EnvHandler`: `splits := strings.Split(item, "=")`,
`key := splits[0]`, `val := strings.Join(splits[1:], "=")`, `environment[key] = val`. -/
def envItem (environment : EnvMap) (item : String) : Except Err EnvMap :=
  match Split item "=" with
  | [] => .error .indexOutOfRange
  | key :: rest => .ok (environment.set key (Join rest "="))

/-- `EnvHandler`: the map built from `os.Environ()`, which is then marshalled to JSON. -/
def EnvHandler (environ : List String) : Except Err EnvMap :=
  environ.foldlM envItem []

/-- The text of an item before its first `=` (the whole item when it has none), as the
specification words it. -/
def textBeforeFirstEq (item : String) : String := ⟨item.data.takeWhile (· ≠ '=')⟩

/-- The text of an item after its first `=` (empty when it has none), as the specification
words it. -/
def textAfterFirstEq (item : String) : String := ⟨(item.data.dropWhile (· ≠ '=')).drop 1⟩

/-- The entry contains the separator as a substring. -/
def containsSeparator (e : String) : Prop := separator.data <:+: e.data

/-- The entry ends with the character `#`. -/
def endsWithHash (e : String) : Prop := e.data.getLast? = some '#'

instance (e : String) : Decidable (containsSeparator e) := by
  unfold containsSeparator; infer_instance

instance (e : String) : Decidable (endsWithHash e) := by
  unfold endsWithHash; infer_instance

/-- An empty table and an empty cache. -/
def emptyWorld : World := ⟨[], fun _ => none⟩

/-! ## Lemmas on `strings.Index`, `strings.Split`, `strings.Join` -/

theorem indexL_decomp (sep : List Char) : ∀ (s : List Char) (m : Nat), indexL sep s = some m →
    s = s.take m ++ sep ++ s.drop (m + sep.length)
  | [], m, h => by
    simp only [indexL] at h
    split at h
    · rename_i hs; subst hs; simp
    · cases h
  | c :: t, m, h => by
    simp only [indexL] at h
    split at h
    · rename_i hp
      have hp2 : sep <+: c :: t := List.isPrefixOf_iff_prefix.mp hp
      cases h
      obtain ⟨r, hr⟩ := hp2
      simp [← hr]
    · cases hi : indexL sep t with
      | none => simp [hi] at h
      | some m2 =>
        simp [hi] at h
        subst h
        have ih := indexL_decomp sep t m2 hi
        have e : m2 + 1 + sep.length = (m2 + sep.length) + 1 := by omega
        rw [e]
        simp only [List.take_succ_cons, List.drop_succ_cons, List.cons_append]
        rw [← ih]

theorem indexL_le (sep : List Char) : ∀ (s : List Char) (m : Nat), indexL sep s = some m →
    m + sep.length ≤ s.length
  | [], m, h => by
    simp only [indexL] at h
    split at h
    · rename_i hs; subst hs; cases h; simp
    · cases h
  | c :: t, m, h => by
    simp only [indexL] at h
    split at h
    · rename_i hp
      cases h
      have := (List.isPrefixOf_iff_prefix.mp hp).length_le
      omega
    · cases hi : indexL sep t with
      | none => simp [hi] at h
      | some m2 =>
        simp [hi] at h
        subst h
        have ih := indexL_le sep t m2 hi
        simp only [List.length_cons]
        omega

theorem genSplit_ne_nil (sep : List Char) (n : Nat) (s : List Char) : genSplit sep n s ≠ [] := by
  cases n with
  | zero => simp [genSplit]
  | succ n => simp only [genSplit]; split <;> simp

theorem joinL_cons (sep a : List Char) (l : List (List Char)) (h : l ≠ []) :
    joinL sep (a :: l) = a ++ sep ++ joinL sep l := by
  cases l with
  | nil => exact absurd rfl h
  | cons b rest => rfl

theorem joinL_genSplit (sep : List Char) : ∀ (n : Nat) (s : List Char),
    joinL sep (genSplit sep n s) = s
  | 0, s => rfl
  | n + 1, s => by
    simp only [genSplit]
    cases hi : indexL sep s with
    | none => rfl
    | some m =>
      simp only
      rw [joinL_cons _ _ _ (genSplit_ne_nil _ _ _), joinL_genSplit sep n]
      exact (indexL_decomp sep s m hi).symm

theorem indexL_nil (sep : List Char) (h : sep ≠ []) : indexL sep [] = none := by
  simp [indexL, h]

theorem genSplit_fuel (sep : List Char) (h : sep ≠ []) : ∀ (n m : Nat) (s : List Char),
    s.length ≤ n → s.length ≤ m → genSplit sep n s = genSplit sep m s
  | 0, 0, _, _, _ => rfl
  | 0, m + 1, s, h1, _ => by
    have : s = [] := List.length_eq_zero.mp (by omega)
    subst this
    simp [genSplit, indexL_nil sep h]
  | n + 1, 0, s, _, h2 => by
    have : s = [] := List.length_eq_zero.mp (by omega)
    subst this
    simp [genSplit, indexL_nil sep h]
  | n + 1, m + 1, s, h1, h2 => by
    simp only [genSplit]
    cases hi : indexL sep s with
    | none => rfl
    | some i =>
      simp only
      have hk : 0 < sep.length := List.length_pos.mpr h
      have hl := indexL_le sep s i hi
      rw [genSplit_fuel sep h n m] <;> simp <;> omega

/-- Unfolding of the cut loop of `splitL`, free of the bound. -/
theorem splitL_unfold (sep : List Char) (h : sep ≠ []) (s : List Char) :
    splitL s sep = match indexL sep s with
      | none => [s]
      | some m => s.take m :: splitL (s.drop (m + sep.length)) sep := by
  simp only [splitL, if_neg h]
  cases hs : s.length with
  | zero =>
    have : s = [] := List.length_eq_zero.mp hs
    subst this
    simp [genSplit, indexL_nil sep h]
  | succ n =>
    simp only [genSplit]
    cases hi : indexL sep s with
    | none => rfl
    | some i =>
      simp only
      have hk : 0 < sep.length := List.length_pos.mpr h
      have hl := indexL_le sep s i hi
      rw [genSplit_fuel sep h n (s.drop (i + sep.length)).length] <;> simp; omega

theorem joinL_splitL (sep : List Char) (h : sep ≠ []) (s : List Char) :
    joinL sep (splitL s sep) = s := by
  simp only [splitL, if_neg h]
  exact joinL_genSplit sep _ s

theorem indexL_none_of_absent (sep : List Char) : ∀ (s : List Char), ¬ sep <:+: s →
    indexL sep s = none
  | [], h => by
    have : sep ≠ [] := fun e => h (e ▸ List.nil_infix)
    simp [indexL, this]
  | c :: t, h => by
    have hp : ¬ sep.isPrefixOf (c :: t) = true := fun hp =>
      h (List.isPrefixOf_iff_prefix.mp hp).isInfix
    have ht : ¬ sep <:+: t := fun ht => h (ht.trans (List.suffix_cons c t).isInfix)
    simp [indexL, hp, indexL_none_of_absent sep t ht]

theorem indexL_some_of_present (sep : List Char) : ∀ (s : List Char), sep <:+: s →
    ∃ m, indexL sep s = some m
  | s, h => by
    cases hi : indexL sep s with
    | some m => exact ⟨m, rfl⟩
    | none =>
      exfalso
      induction s with
      | nil =>
        have : sep = [] := List.eq_nil_of_infix_nil h
        simp [indexL, this] at hi
      | cons c t ih =>
        simp only [indexL] at hi
        split at hi
        · cases hi
        · rename_i hp
          rcases List.infix_cons_iff.mp h with h1 | h1
          · exact hp (List.isPrefixOf_iff_prefix.mpr h1)
          · cases ht : indexL sep t with
            | none => exact ih h1 ht
            | some m => simp [ht] at hi

/-- The separator as a character list. -/
theorem separator_data : separator.data = ['#', '#', '#'] := rfl

theorem not_prefix_sep_append : ∀ (x r : List Char), x ≠ [] → ¬ ['#', '#', '#'] <:+: x →
    x.getLast? ≠ some '#' → ¬ List.isPrefixOf ['#', '#', '#'] (x ++ ['#', '#', '#'] ++ r) = true
  | [], _, hx, _, _ => absurd rfl hx
  | [c], _, _, _, h2 => by
    intro hp
    simp [List.isPrefixOf] at hp
    simp [← hp] at h2
  | [c, d], _, _, _, h2 => by
    intro hp
    simp [List.isPrefixOf] at hp
    simp [← hp.2] at h2
  | c :: d :: e :: u, _, _, h1, _ => by
    intro hp
    simp [List.isPrefixOf] at hp
    obtain ⟨hc, hd, he⟩ := hp
    subst hc hd he
    exact h1 (List.prefix_append ['#', '#', '#'] u).isInfix

theorem indexL_sep_append (x r : List Char) (h1 : ¬ ['#', '#', '#'] <:+: x)
    (h2 : x.getLast? ≠ some '#') :
    indexL ['#', '#', '#'] (x ++ ['#', '#', '#'] ++ r) = some x.length := by
  induction x with
  | nil => simp [indexL, List.isPrefixOf]
  | cons c t ih =>
    have ht1 : ¬ ['#', '#', '#'] <:+: t := fun ht => h1 (ht.trans (List.suffix_cons c t).isInfix)
    have ht2 : t.getLast? ≠ some '#' := by
      cases t with
      | nil => simp
      | cons d u => simpa [List.getLast?_cons_cons] using h2
    have hp := not_prefix_sep_append (c :: t) r (by simp) h1 h2
    have ih2 := ih ht1 ht2
    simp only [List.cons_append, List.append_assoc] at hp ih2 ⊢
    simp only [indexL, hp, ih2]
    simp

theorem splitL_joinL (xs : List (List Char)) (hne : xs ≠ [])
    (h1 : ∀ x ∈ xs, ¬ ['#', '#', '#'] <:+: x)
    (h2 : ∀ x ∈ xs.dropLast, x.getLast? ≠ some '#') :
    splitL (joinL ['#', '#', '#'] xs) ['#', '#', '#'] = xs := by
  induction xs with
  | nil => exact absurd rfl hne
  | cons x rest ih =>
    cases rest with
    | nil =>
      rw [splitL_unfold _ (by simp)]
      simp only [joinL]
      rw [indexL_none_of_absent _ _ (h1 x (by simp))]
    | cons y rest =>
      rw [splitL_unfold _ (by simp)]
      simp only [joinL]
      rw [indexL_sep_append x _ (h1 x (by simp)) (h2 x (by simp))]
      simp only [List.append_assoc, List.take_left, List.length_cons, List.length_nil]
      have hd : List.drop (x.length + (0 + 1 + 1 + 1))
          (x ++ ('#' :: '#' :: '#' :: joinL ['#', '#', '#'] (y :: rest)))
          = joinL ['#', '#', '#'] (y :: rest) := by
        rw [List.drop_append]
        rfl
      have ih2 := ih (by simp) (fun z hz => h1 z (List.mem_cons_of_mem _ hz))
        (fun z hz => h2 z (by simp [List.dropLast_cons₂]; exact Or.inr (by simpa using hz)))
      simp only [List.cons_append, List.nil_append] at hd ⊢
      rw [hd, ih2]

/-! ### The number of fields: leftmost cutting finds at least as many separators as any other
way of cutting -/

theorem splitL_length_none (sep : List Char) (h : sep ≠ []) (s : List Char)
    (hi : indexL sep s = none) : (splitL s sep).length = 1 := by
  rw [splitL_unfold sep h, hi]; rfl

theorem splitL_length_some (sep : List Char) (h : sep ≠ []) (s : List Char) (m : Nat)
    (hi : indexL sep s = some m) :
    (splitL s sep).length = 1 + (splitL (s.drop (m + sep.length)) sep).length := by
  rw [splitL_unfold sep h, hi]; simp [Nat.add_comm]

theorem splitL_length_pos (sep : List Char) (h : sep ≠ []) (s : List Char) :
    1 ≤ (splitL s sep).length := by
  cases hi : indexL sep s with
  | none => rw [splitL_length_none sep h s hi]
  | some m => rw [splitL_length_some sep h s m hi]; omega

theorem splitL_length_cons (sep : List Char) (h : sep ≠ []) (c : Char) (t : List Char)
    (hj : ∀ j, j ≤ sep.length → (splitL t sep).length ≤ 1 + (splitL (t.drop j) sep).length) :
    (splitL t sep).length ≤ (splitL (c :: t) sep).length := by
  have hk : 0 < sep.length := List.length_pos.mpr h
  by_cases hp : sep.isPrefixOf (c :: t) = true
  · have hi : indexL sep (c :: t) = some 0 := by simp [indexL, hp]
    rw [splitL_length_some sep h _ 0 hi]
    have e : List.drop (0 + sep.length) (c :: t) = List.drop (sep.length - 1) t := by
      obtain ⟨k, hk2⟩ : ∃ k, sep.length = k + 1 := ⟨sep.length - 1, by omega⟩
      simp [hk2]
    rw [e]
    exact hj (sep.length - 1) (by omega)
  · cases hi : indexL sep t with
    | none =>
      have hi2 : indexL sep (c :: t) = none := by simp [indexL, hp, hi]
      rw [splitL_length_none sep h _ hi, splitL_length_none sep h _ hi2]
    | some m =>
      have hi2 : indexL sep (c :: t) = some (m + 1) := by simp [indexL, hp, hi]
      rw [splitL_length_some sep h _ m hi, splitL_length_some sep h _ (m + 1) hi2]
      have e : m + 1 + sep.length = (m + sep.length) + 1 := by omega
      rw [e, List.drop_succ_cons]

theorem splitL_length_drop_aux (sep : List Char) (h : sep ≠ []) : ∀ (n : Nat) (s : List Char),
    s.length ≤ n →
    (∀ i, (splitL (s.drop i) sep).length ≤ (splitL s sep).length) ∧
    (∀ j, j ≤ sep.length → (splitL s sep).length ≤ 1 + (splitL (s.drop j) sep).length) := by
  intro n
  induction n with
  | zero =>
    intro s hs
    have : s = [] := List.length_eq_zero.mp (by omega)
    subst this
    constructor
    · intro i; simp
    · intro j _; simp
  | succ n ih =>
    have A : ∀ (u : List Char), u.length ≤ n + 1 →
        ∀ i, (splitL (u.drop i) sep).length ≤ (splitL u sep).length := by
      intro u hu i
      cases i with
      | zero => simp
      | succ i =>
        cases u with
        | nil => simp
        | cons c t =>
          have ht : t.length ≤ n := by simpa using hu
          rw [List.drop_succ_cons]
          exact Nat.le_trans ((ih t ht).1 i) (splitL_length_cons sep h c t (ih t ht).2)
    intro s hs
    refine ⟨A s hs, ?_⟩
    intro j hj
    cases hi : indexL sep s with
    | none => rw [splitL_length_none sep h s hi]; omega
    | some m =>
      rw [splitL_length_some sep h s m hi]
      have e : List.drop (m + sep.length) s = List.drop (m + sep.length - j) (List.drop j s) := by
        rw [List.drop_drop]; congr 1; omega
      rw [e]
      have hu : (List.drop j s).length ≤ n + 1 := by simp; omega
      have := A (List.drop j s) hu (m + sep.length - j)
      omega

theorem splitL_length_drop (sep : List Char) (h : sep ≠ []) (s : List Char) (i : Nat) :
    (splitL (s.drop i) sep).length ≤ (splitL s sep).length :=
  (splitL_length_drop_aux sep h s.length s (Nat.le_refl _)).1 i

theorem indexL_append_of_some (sep : List Char) : ∀ (u v : List Char) (m : Nat),
    indexL sep u = some m → indexL sep (u ++ v) = some m
  | [], v, m, hi => by
    simp only [indexL] at hi
    split at hi
    · rename_i hs
      cases hi
      subst hs
      cases v <;> simp [indexL]
    · cases hi
  | c :: t, v, m, hi => by
    simp only [indexL] at hi
    split at hi
    · rename_i hp
      cases hi
      have hp2 : sep <+: c :: t ++ v :=
        (List.isPrefixOf_iff_prefix.mp hp).trans (List.prefix_append _ _)
      have hp3 : sep.isPrefixOf (c :: (t ++ v)) = true := List.isPrefixOf_iff_prefix.mpr hp2
      simp [indexL, hp3]
    · rename_i hp
      cases ht : indexL sep t with
      | none => simp [ht] at hi
      | some m2 =>
        simp [ht] at hi
        subst hi
        have ih := indexL_append_of_some sep t v m2 ht
        by_cases hp3 : sep.isPrefixOf (c :: (t ++ v)) = true
        · exfalso
          have hl := indexL_le sep t m2 ht
          have hp4 : sep <+: c :: (t ++ v) := List.isPrefixOf_iff_prefix.mp hp3
          have hp5 : sep <+: c :: t := by
            have h6 : c :: t <+: c :: (t ++ v) := by
              simp
            exact List.prefix_of_prefix_length_le hp4 h6 (by simp; omega)
          exact hp (List.isPrefixOf_iff_prefix.mpr hp5)
        · simp [indexL, hp3, ih]

/-- Cutting a concatenation finds every cut of its two parts. -/
theorem splitL_length_append (sep : List Char) (h : sep ≠ []) : ∀ (n : Nat) (u v : List Char),
    u.length ≤ n →
    (splitL u sep).length + (splitL v sep).length ≤ (splitL (u ++ v) sep).length + 1 := by
  intro n
  induction n with
  | zero =>
    intro u v hu
    have : u = [] := List.length_eq_zero.mp (by omega)
    subst this
    rw [splitL_length_none sep h [] (indexL_nil sep h)]
    simp; omega
  | succ n ih =>
    intro u v hu
    cases hi : indexL sep u with
    | none =>
      rw [splitL_length_none sep h u hi]
      have := splitL_length_drop sep h (u ++ v) u.length
      simp at this
      omega
    | some m =>
      have hk : 0 < sep.length := List.length_pos.mpr h
      have hl := indexL_le sep u m hi
      rw [splitL_length_some sep h u m hi,
        splitL_length_some sep h (u ++ v) m (indexL_append_of_some sep u v m hi)]
      have e : List.drop (m + sep.length) (u ++ v) = List.drop (m + sep.length) u ++ v := by
        rw [List.drop_append_of_le_length hl]
      rw [e]
      have := ih (List.drop (m + sep.length) u) v (by simp; omega)
      omega

theorem splitL_length_sep_append (sep : List Char) (h : sep ≠ []) (v : List Char) :
    (splitL (sep ++ v) sep).length = 1 + (splitL v sep).length := by
  have hi : indexL sep (sep ++ v) = some 0 := by
    cases hs : sep ++ v with
    | nil => simp [h] at hs
    | cons c t =>
      have : sep.isPrefixOf (c :: t) = true :=
        List.isPrefixOf_iff_prefix.mpr (hs ▸ List.prefix_append sep v)
      simp [indexL, this]
  rw [splitL_length_some sep h _ 0 hi]
  simp

theorem splitL_length_of_present (sep : List Char) (h : sep ≠ []) (x : List Char)
    (hx : sep <:+: x) : 2 ≤ (splitL x sep).length := by
  obtain ⟨a, b, hab⟩ := hx
  have h1 := splitL_length_append sep h a.length a (sep ++ b) (Nat.le_refl _)
  rw [splitL_length_sep_append sep h b] at h1
  have h2 := splitL_length_pos sep h a
  have h3 := splitL_length_pos sep h b
  rw [← hab, List.append_assoc]
  omega

/-- The join of `xs` splits into at least as many fields as `xs` has entries, plus one for
each further separator inside an entry. -/
theorem splitL_joinL_length (sep : List Char) (h : sep ≠ []) : ∀ (xs : List (List Char)),
    xs ≠ [] →
    (xs.map (fun x => (splitL x sep).length)).sum ≤ (splitL (joinL sep xs) sep).length
  | [], hne => absurd rfl hne
  | [x], _ => by simp [joinL]
  | x :: y :: rest, _ => by
    have ih := splitL_joinL_length sep h (y :: rest) (by simp)
    have h1 := splitL_length_append sep h x.length x (sep ++ joinL sep (y :: rest))
      (Nat.le_refl _)
    rw [splitL_length_sep_append sep h] at h1
    simp only [joinL, List.map_cons, List.sum_cons, List.append_assoc] at ih ⊢
    omega

theorem sum_lengths_ge (sep : List Char) (h : sep ≠ []) : ∀ (xs : List (List Char)),
    xs.length ≤ (xs.map (fun x => (splitL x sep).length)).sum
  | [] => by simp
  | x :: rest => by
    have := sum_lengths_ge sep h rest
    have := splitL_length_pos sep h x
    simp only [List.length_cons, List.map_cons, List.sum_cons]
    omega

theorem sum_lengths_gt (sep : List Char) (h : sep ≠ []) : ∀ (xs : List (List Char)),
    (∃ x ∈ xs, sep <:+: x) →
    xs.length < (xs.map (fun x => (splitL x sep).length)).sum
  | [], hx => by obtain ⟨x, hm, _⟩ := hx; cases hm
  | x :: rest, hx => by
    simp only [List.length_cons, List.map_cons, List.sum_cons]
    obtain ⟨z, hm, hz⟩ := hx
    rcases List.mem_cons.mp hm with e | e
    · subst e
      have := sum_lengths_ge sep h rest
      have := splitL_length_of_present sep h z hz
      omega
    · have := sum_lengths_gt sep h rest ⟨z, e, hz⟩
      have := splitL_length_pos sep h x
      omega

/-! ## Lemmas on the `String` versions and on the state -/

theorem map_mk_data (xs : List String) : (xs.map String.data).map String.mk = xs := by
  induction xs with
  | nil => rfl
  | cons x rest ih => simp [ih]

theorem Split_ne_nil (s : String) : Split s separator ≠ [] := by
  unfold Split
  simp only [splitL, separator_data]
  simp [genSplit_ne_nil]

theorem Split_Join (xs : List String) (hne : xs ≠ [])
    (h1 : ∀ x ∈ xs, ¬ containsSeparator x) (h2 : ∀ x ∈ xs.dropLast, ¬ endsWithHash x) :
    Split (Join xs separator) separator = xs := by
  unfold Split Join
  simp only [separator_data]
  rw [splitL_joinL (xs.map String.data) (by simpa using hne)]
  · exact map_mk_data xs
  · intro x hx
    obtain ⟨y, hy, e⟩ := List.mem_map.mp hx
    subst e
    exact h1 y hy
  · intro x hx
    rw [← List.map_dropLast] at hx
    obtain ⟨y, hy, e⟩ := List.mem_map.mp hx
    subst e
    exact h2 y hy

theorem not_infix_of_not_mem (x : List Char) (h : '#' ∉ x) : ¬ ['#', '#', '#'] <:+: x := by
  intro hi
  exact h (hi.subset (by simp))

theorem Split_Join_length (xs : List String) (h : ∃ x ∈ xs, containsSeparator x) :
    xs.length < (Split (Join xs separator) separator).length := by
  unfold Split Join
  simp only [separator_data, List.length_map]
  have hs : (['#', '#', '#'] : List Char) ≠ [] := by simp
  obtain ⟨x, hx, hc⟩ := h
  have hne : xs.map String.data ≠ [] := by
    intro e
    rw [List.map_eq_nil_iff] at e
    subst e
    cases hx
  have h1 := splitL_joinL_length _ hs (xs.map String.data) hne
  have h2 := sum_lengths_gt _ hs (xs.map String.data) ⟨x.data, List.mem_map_of_mem _ hx, hc⟩
  simp only [List.length_map] at h2
  omega

theorem foldl_Add_guestbooks (key : String) : ∀ (members : List String) (w : World),
    (members.foldl (fun l member => Add l key member) w).guestbooks = w.guestbooks
  | [], _ => rfl
  | m :: rest, w => by
    simp only [List.foldl_cons]
    rw [foldl_Add_guestbooks key rest]
    rfl

theorem foldl_Add_other (key k : String) (hk : k ≠ key) : ∀ (members : List String) (w : World),
    (members.foldl (fun l member => Add l key member) w).cache k = w.cache k
  | [], _ => rfl
  | m :: rest, w => by
    simp only [List.foldl_cons]
    rw [foldl_Add_other key k hk rest]
    simp [Add, hk]

theorem foldl_Add_key (key : String) : ∀ (members : List String) (w : World),
    members ≠ [] →
    (members.foldl (fun l member => Add l key member) w).cache key
      = some (cached w key ++ members)
  | [], _, h => absurd rfl h
  | [m], w, _ => by simp [Add]
  | m :: m2 :: rest, w, _ => by
    simp only [List.foldl_cons]
    have ih := foldl_Add_key key (m2 :: rest) (Add w key m) (by simp)
    simp only [List.foldl_cons] at ih
    rw [ih]
    simp [cached, Add]

theorem repopulate_key (key : String) (members : List String) (w : World) :
    (members.foldl (fun l member => Add l key member) (Clear w key)).cache key
      = if members = [] then none else some members := by
  by_cases h : members = []
  · subst h; simp [Clear]
  · rw [foldl_Add_key key members _ h]
    simp [h, cached, Clear]

theorem getFromDB_congr (f : Faults) (w w2 : World) (h : w2.guestbooks = w.guestbooks) :
    getFromDB f w2 = getFromDB f w := by
  simp [getFromDB, h]

theorem getFromDB_noFaults (w : World) : ∃ prev, getFromDB noFaults w = .ok prev := by
  unfold getFromDB
  cases w.guestbooks.getLast? <;> simp [noFaults]

theorem getFromDB_snoc (w : World) (row : String) (h : ∃ l, w.guestbooks = l ++ [row]) :
    getFromDB noFaults w = .ok (Split row separator) := by
  obtain ⟨l, hl⟩ := h
  simp [getFromDB, noFaults, hl]

theorem ListRangeHandler_guestbooks (f : Faults) (key : String) (w : World) :
    (ListRangeHandler f key w).2.guestbooks = w.guestbooks := by
  unfold ListRangeHandler
  cases All f w key with
  | ok members => rfl
  | error e =>
    cases getFromDB f w with
    | error e2 => rfl
    | ok members => simp [foldl_Add_guestbooks, Clear]

theorem ListRangeHandler_miss (f : Faults) (key : String) (w : World) (e : Err)
    (members : List String) (h1 : All f w key = .error e) (h2 : getFromDB f w = .ok members) :
    ListRangeHandler f key w
      = (.ok members, members.foldl (fun l member => Add l key member) (Clear w key)) := by
  simp [ListRangeHandler, h1, h2]

theorem ListRangeHandler_hit (f : Faults) (key : String) (w : World)
    (members : List String) (h1 : All f w key = .ok members) :
    ListRangeHandler f key w = (.ok members, w) := by
  simp [ListRangeHandler, h1]

theorem All_Clear (f : Faults) (key : String) (w : World) :
    All f (Clear w key) key = .error .cacheMiss := by
  simp [All, Clear]

theorem All_noFaults_none (key : String) (w : World) (h : w.cache key = none) :
    All noFaults w key = .error .cacheMiss := by
  simp [All, noFaults, h]

theorem All_noFaults_some (key : String) (w : World) (l : List String)
    (h : w.cache key = some l) : All noFaults w key = .ok l := by
  simp [All, noFaults, h]

/-- What `Write` does when every adapter succeeds. -/
theorem ListPushHandler_noFaults (key value : String) (w : World) (prev : List String)
    (hp : getFromDB noFaults w = .ok prev) :
    (ListPushHandler noFaults key value w).1
        = .ok (Split (Join (prev ++ [value]) separator) separator) ∧
    (ListPushHandler noFaults key value w).2.guestbooks
        = w.guestbooks ++ [Join (prev ++ [value]) separator] ∧
    (ListPushHandler noFaults key value w).2.cache key
        = some (Split (Join (prev ++ [value]) separator) separator) ∧
    ∀ k, k ≠ key → (ListPushHandler noFaults key value w).2.cache k = w.cache k := by
  have hw : writeToDB noFaults w (prev ++ [value])
      = .ok { w with guestbooks := w.guestbooks ++ [Join (prev ++ [value]) separator] } := by
    simp [writeToDB, noFaults]
  have hg : getFromDB noFaults
      (Clear { w with guestbooks := w.guestbooks ++ [Join (prev ++ [value]) separator] } key)
      = .ok (Split (Join (prev ++ [value]) separator) separator) :=
    getFromDB_snoc _ _ ⟨w.guestbooks, rfl⟩
  have hr := ListRangeHandler_miss noFaults key _ _ _ (All_Clear noFaults key _) hg
  simp only [ListPushHandler, hp, hw, hr]
  refine ⟨trivial, ?_, ?_, ?_⟩
  · rw [foldl_Add_guestbooks]; rfl
  · rw [repopulate_key, if_neg (Split_ne_nil _)]
  · intro k hk
    rw [foldl_Add_other key k hk]
    simp [Clear, hk]

/-! ## Lemmas for `EnvHandler` -/

theorem indexL_eq_sign : ∀ (s : List Char),
    (indexL ['='] s = none ∧ s.takeWhile (· ≠ '=') = s ∧ s.dropWhile (· ≠ '=') = []) ∨
    (∃ m, indexL ['='] s = some m ∧ s.take m = s.takeWhile (· ≠ '=') ∧
      s.drop (m + 1) = (s.dropWhile (· ≠ '=')).drop 1)
  | [] => Or.inl (by simp [indexL])
  | c :: t => by
    by_cases hc : c = '='
    · subst hc
      refine Or.inr ⟨0, ?_, ?_, ?_⟩ <;> simp [indexL, List.isPrefixOf]
    · have hp : ¬ List.isPrefixOf ['='] (c :: t) = true := by
        simp [List.isPrefixOf]
        exact fun h => hc h.symm
      have hd : (fun x : Char => decide (x ≠ '=')) c = true := by simp [hc]
      rcases indexL_eq_sign t with ⟨h1, h2, h3⟩ | ⟨m, h1, h2, h3⟩
      · refine Or.inl ⟨?_, ?_, ?_⟩
        · simp [indexL, hp, h1]
        · rw [List.takeWhile_cons_of_pos (p := fun x => decide (x ≠ '=')) hd, h2]
        · rw [List.dropWhile_cons_of_pos (p := fun x => decide (x ≠ '=')) hd, h3]
      · refine Or.inr ⟨m + 1, ?_, ?_, ?_⟩
        · simp [indexL, hp, h1]
        · rw [List.takeWhile_cons_of_pos (p := fun x => decide (x ≠ '=')) hd, List.take_succ_cons, h2]
        · rw [List.dropWhile_cons_of_pos (p := fun x => decide (x ≠ '=')) hd, List.drop_succ_cons, h3]

theorem splitL_eq_sign (s : List Char) :
    ∃ rest, splitL s ['='] = s.takeWhile (· ≠ '=') :: rest ∧
      joinL ['='] rest = (s.dropWhile (· ≠ '=')).drop 1 := by
  have hs : (['='] : List Char) ≠ [] := by simp
  rw [splitL_unfold _ hs]
  rcases indexL_eq_sign s with ⟨h1, h2, h3⟩ | ⟨m, h1, h2, h3⟩
  · rw [h1, h2, h3]
    exact ⟨[], rfl, rfl⟩
  · rw [h1]
    refine ⟨splitL (s.drop (m + 1)) ['='], ?_, ?_⟩
    · simp [h2]
    · rw [joinL_splitL _ hs, h3]

theorem map_data_mk (xs : List (List Char)) : (xs.map String.mk).map String.data = xs := by
  induction xs with
  | nil => rfl
  | cons x rest ih => simp [ih]

theorem Split_eq_sign (item : String) :
    ∃ rest, Split item "=" = textBeforeFirstEq item :: rest ∧
      Join rest "=" = textAfterFirstEq item := by
  obtain ⟨rest, h1, h2⟩ := splitL_eq_sign item.data
  refine ⟨rest.map String.mk, ?_, ?_⟩
  · unfold Split textBeforeFirstEq
    have : ("=" : String).data = ['='] := rfl
    rw [this, h1]
    rfl
  · unfold Join textAfterFirstEq
    have : ("=" : String).data = ['='] := rfl
    rw [this, map_data_mk, h2]

theorem envItem_eq (environment : EnvMap) (item : String) :
    envItem environment item
      = .ok (environment.set (textBeforeFirstEq item) (textAfterFirstEq item)) := by
  obtain ⟨rest, h1, h2⟩ := Split_eq_sign item
  simp [envItem, h1, h2]

theorem EnvMap.set_new (m : EnvMap) (k v : String) (h : k ∉ m.map Prod.fst) :
    EnvMap.set m k v = m ++ [(k, v)] := by
  unfold EnvMap.set
  have : m.any (fun p => p.1 == k) = false := by
    rw [List.any_eq_false]
    intro p hp hpk
    have : p.1 = k := by simpa using hpk
    exact h (this ▸ List.mem_map_of_mem Prod.fst hp)
  simp [this]

theorem foldlM_envItem : ∀ (items : List String) (acc : EnvMap),
    (items.map textBeforeFirstEq).Nodup →
    (∀ it ∈ items, textBeforeFirstEq it ∉ acc.map Prod.fst) →
    items.foldlM envItem acc
      = .ok (acc ++ items.map (fun it => (textBeforeFirstEq it, textAfterFirstEq it)))
  | [], acc, _, _ => by simp [pure, Except.pure]
  | it :: rest, acc, hn, hd => by
    rw [List.foldlM_cons, envItem_eq, EnvMap.set_new _ _ _ (hd it (by simp))]
    have hn2 := List.nodup_cons.mp hn
    have ih := foldlM_envItem rest (acc ++ [(textBeforeFirstEq it, textAfterFirstEq it)]) hn2.2
      (by
        intro x hx
        simp only [List.map_append, List.map_cons, List.map_nil, List.mem_append,
          List.mem_singleton, not_or]
        refine ⟨hd x (by simp [hx]), ?_⟩
        intro e
        exact hn2.1 (e ▸ List.mem_map_of_mem _ hx))
    show (Except.ok _ >>= fun b => List.foldlM envItem b rest) = _
    simp only [bind, Except.bind]
    rw [ih]
    simp

theorem EnvMap.get_pairs : ∀ (items : List String), (items.map textBeforeFirstEq).Nodup →
    ∀ it ∈ items,
      EnvMap.get (items.map (fun it => (textBeforeFirstEq it, textAfterFirstEq it)))
        (textBeforeFirstEq it) = some (textAfterFirstEq it)
  | [], _, it, h => by cases h
  | a :: rest, hn, it, h => by
    have hn2 := List.nodup_cons.mp hn
    rcases List.mem_cons.mp h with e | e
    · subst e
      simp [EnvMap.get]
    · have hne : textBeforeFirstEq a ≠ textBeforeFirstEq it := by
        intro e2
        exact hn2.1 (e2 ▸ List.mem_map_of_mem _ e)
      have ih := EnvMap.get_pairs rest hn2.2 it e
      unfold EnvMap.get at ih ⊢
      simp only [List.map_cons, List.find?_cons]
      have : ((textBeforeFirstEq a, textAfterFirstEq a).1 == textBeforeFirstEq it) = false := by
        simpa using hne
      rw [this]
      exact ih

theorem before_eq_after (item : String) (h : '=' ∈ item.data) :
    textBeforeFirstEq item ++ "=" ++ textAfterFirstEq item = item := by
  apply String.ext
  simp only [String.data_append, textBeforeFirstEq, textAfterFirstEq]
  have hd : ∃ r, item.data.dropWhile (· ≠ '=') = '=' :: r := by
    generalize item.data = s at h
    induction s with
    | nil => cases h
    | cons c t ih =>
      by_cases hc : c = '='
      · subst hc; exact ⟨t, by simp⟩
      · have ht : '=' ∈ t := by
          rcases List.mem_cons.mp h with e | e
          · exact absurd e.symm hc
          · exact e
        obtain ⟨r, hr⟩ := ih ht
        have hd : (fun x : Char => decide (x ≠ '=')) c = true := by simp [hc]
        exact ⟨r, by rw [List.dropWhile_cons_of_pos (p := fun x => decide (x ≠ '=')) hd, hr]⟩
  obtain ⟨r, hr⟩ := hd
  have := List.takeWhile_append_dropWhile (fun c => decide (c ≠ '=')) item.data
  rw [hr] at this ⊢
  have e : ("=" : String).data = ['='] := rfl
  simp only [e, List.drop_succ_cons, List.drop_zero, List.append_assoc, List.singleton_append]
  exact this

theorem before_no_eq_sign (item : String) : '=' ∉ (textBeforeFirstEq item).data := by
  intro h
  have := List.mem_takeWhile_imp h
  simp at this

theorem writeAll_invariant (key : String) : ∀ (es pre : List String) (w : World),
    getFromDB noFaults w = .ok pre →
    (∀ e ∈ pre ++ es, ¬ containsSeparator e) →
    (∀ e ∈ (pre ++ es).dropLast, ¬ endsWithHash e) →
    ∃ w2, writeAll key es w = .ok w2 ∧
      getFromDB noFaults w2 = .ok (pre ++ es) ∧
      (es ≠ [] → w2.cache key = some (pre ++ es)) ∧
      (es = [] → w2 = w)
  | [], pre, w, hg, _, _ =>
    ⟨w, rfl, by simpa using hg, fun h => absurd rfl h, fun _ => rfl⟩
  | e :: rest, pre, w, hg, h1, h2 => by
    have hp := ListPushHandler_noFaults key e w pre hg
    have hsj : Split (Join (pre ++ [e]) separator) separator = pre ++ [e] := by
      apply Split_Join (pre ++ [e]) (by simp)
      · intro x hx
        apply h1 x
        simp only [List.mem_append, List.mem_singleton, List.mem_cons] at hx ⊢
        tauto
      · intro x hx
        apply h2 x
        rw [List.dropLast_append_of_ne_nil _ (by simp)]
        simp only [List.dropLast_concat] at hx
        exact List.mem_append_left _ hx
    rw [hsj] at hp
    obtain ⟨q1, q2, q3, _⟩ := hp
    have hw : ListPushHandler noFaults key e w
        = (.ok (pre ++ [e]), (ListPushHandler noFaults key e w).2) := Prod.ext q1 rfl
    have hg2 : getFromDB noFaults (ListPushHandler noFaults key e w).2 = .ok (pre ++ [e]) := by
      rw [getFromDB_snoc _ (Join (pre ++ [e]) separator) ⟨_, q2⟩, hsj]
    have e1 : pre ++ [e] ++ rest = pre ++ e :: rest := by simp
    obtain ⟨w3, r1, r2, r3, r4⟩ := writeAll_invariant key rest (pre ++ [e])
      (ListPushHandler noFaults key e w).2 hg2 (by rw [e1]; exact h1) (by rw [e1]; exact h2)
    refine ⟨w3, ?_, by rw [r2, e1], ?_, fun h => absurd h (by simp)⟩
    · simp only [writeAll]
      rw [hw]
      exact r1
    · intro _
      by_cases hr : rest = []
      · rw [r4 hr, q3, hr]
      · rw [r3 hr, e1]

/-- With `db.Query` and `rows.Scan` succeeding, `getFromDB` returns the split of the last
row, or the empty slice when the table has no row. -/
theorem getFromDB_ok (f : Faults) (w : World) (hq : f.queryErr = false)
    (hs : f.scanErr = false) :
    getFromDB f w = .ok (match w.guestbooks.getLast? with
      | none => []
      | some row => Split row separator) := by
  unfold getFromDB
  cases w.guestbooks.getLast? <;> simp [hq, hs]

/-- After clearing the key and adding the members in order, the cache list of the key is the
sequence of members. -/
theorem repopulate_cached (key : String) (members : List String) (w : World) :
    cached (members.foldl (fun l member => Add l key member) (Clear w key)) key = members := by
  simp only [cached, repopulate_key]
  split <;> simp_all

/-- A read that follows the repopulation of the key returns the members that were put into
the cache, or, when there were none, what `getFromDB` returns again. -/
theorem read_after_repopulate (f : Faults) (key : String) (w : World) (members : List String)
    (hg : getFromDB f w = .ok members) :
    (ListRangeHandler f key
      (members.foldl (fun l member => Add l key member) (Clear w key))).1 = .ok members := by
  have hc := repopulate_cached key members w
  generalize hw1 : List.foldl (fun l member => Add l key member) (Clear w key) members = w1
    at hc ⊢
  have hgb : w1.guestbooks = w.guestbooks := by
    rw [← hw1, foldl_Add_guestbooks]
    rfl
  have hg1 : getFromDB f w1 = .ok members := by
    rw [getFromDB_congr f w w1 hgb]
    exact hg
  cases hA1 : All f w1 key with
  | error e1 => rw [ListRangeHandler_miss f key w1 e1 members hA1 hg1]
  | ok m1 =>
    rw [ListRangeHandler_hit f key w1 m1 hA1]
    unfold All at hA1
    split at hA1
    · cases hA1
    · unfold cached at hc
      cases hc1 : w1.cache key with
      | none => simp [hc1] at hA1
      | some l =>
        simp [hc1] at hA1 hc
        rw [← hA1, hc]

theorem ListRangeHandler_fail (f : Faults) (key : String) (w : World) (e e2 : Err)
    (h1 : All f w key = .error e) (h2 : getFromDB f w = .error e2) :
    ListRangeHandler f key w = (.error e2, w) := by
  simp [ListRangeHandler, h1, h2]

/-- Once the first fetch and the insert have succeeded, `Write` is the `Read` on the table
with the new row and the key cleared. -/
theorem ListPushHandler_delegate (f : Faults) (key value : String) (w : World)
    (prev : List String) (hg : getFromDB f w = .ok prev) (hx : f.execErr = false) :
    ListPushHandler f key value w
      = ListRangeHandler f key
          (Clear ⟨w.guestbooks ++ [Join (prev ++ [value]) separator], w.cache⟩ key) := by
  simp [ListPushHandler, hg, writeToDB, hx]

/-- The `Read` that `Write` delegates to misses the cleared key, so its outcome is that of
`getFromDB` on the table with the new row. -/
theorem ListRangeHandler_cleared (f : Faults) (key : String) (rows : List String)
    (c : String → Option (List String)) :
    (∀ e, getFromDB f ⟨rows, c⟩ = .error e →
      ListRangeHandler f key (Clear ⟨rows, c⟩ key) = (.error e, Clear ⟨rows, c⟩ key)) ∧
    (∀ members, getFromDB f ⟨rows, c⟩ = .ok members →
      (ListRangeHandler f key (Clear ⟨rows, c⟩ key)).1 = .ok members) := by
  have hc : ∀ r, getFromDB f ⟨rows, c⟩ = r → getFromDB f (Clear ⟨rows, c⟩ key) = r := by
    intro r hr
    rw [getFromDB_congr f ⟨rows, c⟩ (Clear ⟨rows, c⟩ key) rfl]
    exact hr
  constructor
  · intro e he
    exact ListRangeHandler_fail f key _ _ e (All_Clear f key _) (hc _ he)
  · intro members hm
    rw [ListRangeHandler_miss f key _ _ members (All_Clear f key _) (hc _ hm)]

/-! ## The claims -/

/-- C1, as amended: starting from a table with no rows, for every key and every sequence of
entries none of which contains the separator `###` and none of which, the last one excepted,
ends with the character `#`, the writes `Write(key, e1)`, ..., `Write(key, en)` followed by
`Read(key)` return exactly `[e1, ..., en]`; for the empty sequence the key must be absent from
the cache. -/
theorem write_read_round_trip (key : String) (es : List String) (w : World)
    (hw : w.guestbooks = [])
    (h1 : ∀ e ∈ es, ¬ containsSeparator e)
    (h2 : ∀ e ∈ es.dropLast, ¬ endsWithHash e)
    (h3 : es ≠ [] ∨ w.cache key = none) :
    readAfterWrites key es w = .ok es := by
  have hg0 : getFromDB noFaults w = .ok [] := by simp [getFromDB, noFaults, hw]
  obtain ⟨w2, hwa, hg, hc1, hc2⟩ := writeAll_invariant key es [] w hg0
    (by simpa using h1) (by simpa using h2)
  simp only [List.nil_append] at hg hc1
  simp only [readAfterWrites, hwa]
  by_cases he : es = []
  · have hn : w.cache key = none := by
      rcases h3 with h | h
      · exact absurd he h
      · exact h
    rw [hc2 he] at hg ⊢
    rw [ListRangeHandler_miss noFaults key _ _ _ (All_noFaults_none key w hn) hg]
  · rw [ListRangeHandler_hit noFaults key _ _ (All_noFaults_some key w2 es (hc1 he))]

/-- Witness of C1 as amended: the entries `a#b`, the empty entry and `#c#` written to the empty
state are read back unchanged. -/
theorem write_read_round_trip_witness :
    readAfterWrites "k" ["a#b", "", "#c#"] emptyWorld = .ok ["a#b", "", "#c#"] :=
  write_read_round_trip "k" ["a#b", "", "#c#"] emptyWorld rfl (by decide) (by decide)
    (Or.inl (by decide))

/-- Counterexample to C1 as stated: neither `#` nor `x` contains `###`, yet after
`Write(k, "#")` and `Write(k, "x")` on the empty state `Read(k)` returns `["", "#x"]`; and
with no write at all a list already cached under the key is what `Read` returns. -/
theorem write_read_round_trip_fails :
    ((∀ e ∈ ["#", "x"], ¬ containsSeparator e) ∧
      emptyWorld.guestbooks = [] ∧
      readAfterWrites "k" ["#", "x"] emptyWorld = .ok ["", "#x"] ∧
      readAfterWrites "k" ["#", "x"] emptyWorld ≠ .ok ["#", "x"]) ∧
    (readAfterWrites "k" [] ⟨[], fun _ => some ["old"]⟩ = .ok ["old"] ∧
      readAfterWrites "k" [] ⟨[], fun _ => some ["old"]⟩ ≠ .ok []) := by
  decide

/-- C2: when the cache read for the key fails and the store adapters succeed, `Read(key)`
returns exactly what `getFromDB` returns (the split of the last row, or the empty sequence
when there is no row), the table is unchanged, and afterwards the cache list of the key holds
that same sequence. -/
theorem cache_miss_fallback (f : Faults) (key : String) (w : World) (e : Err)
    (hmiss : All f w key = .error e) (hq : f.queryErr = false) (hs : f.scanErr = false) :
    ∃ members w2,
      getFromDB f w = .ok members ∧
      members = (match w.guestbooks.getLast? with
        | none => []
        | some row => Split row separator) ∧
      ListRangeHandler f key w = (.ok members, w2) ∧
      cached w2 key = members ∧
      w2.guestbooks = w.guestbooks := by
  have hg := getFromDB_ok f w hq hs
  refine ⟨_, _, hg, rfl, ListRangeHandler_miss f key w e _ hmiss hg, ?_, ?_⟩
  · exact repopulate_cached key _ w
  · rw [foldl_Add_guestbooks]
    rfl

/-- Witness of C2: with the key absent and the latest snapshot `a###b`, `Read` returns
`["a", "b"]` and the cache then holds `["a", "b"]`. -/
theorem cache_miss_fallback_witness :
    ∃ members w2,
      getFromDB noFaults ⟨["x", "a###b"], fun _ => none⟩ = .ok members ∧
      members = ["a", "b"] ∧
      ListRangeHandler noFaults "k" ⟨["x", "a###b"], fun _ => none⟩ = (.ok members, w2) ∧
      cached w2 "k" = members ∧
      w2.guestbooks = ["x", "a###b"] :=
  cache_miss_fallback noFaults "k" ⟨["x", "a###b"], fun _ => none⟩ .cacheMiss rfl rfl rfl

/-- C3: a successful `Write(key, value)` leaves every stored row unchanged and adds exactly one
row, placed last, whose string is the `###`-join of what `getFromDB` returned before the write
followed by `value`. -/
theorem write_appends_snapshot (f : Faults) (key value : String) (w w2 : World)
    (resp : List String) (h : ListPushHandler f key value w = (.ok resp, w2)) :
    ∃ prev, getFromDB f w = .ok prev ∧
      w2.guestbooks = w.guestbooks ++ [Join (prev ++ [value]) separator] := by
  unfold ListPushHandler at h
  cases hg : getFromDB f w with
  | error e => simp [hg] at h
  | ok prev =>
    refine ⟨prev, rfl, ?_⟩
    cases he : f.execErr with
    | true => simp [hg, writeToDB, he] at h
    | false =>
      simp only [hg, writeToDB, he] at h
      have := ListRangeHandler_guestbooks f key
        (Clear { w with guestbooks := w.guestbooks ++ [Join (prev ++ [value]) separator] } key)
      simp only [Bool.false_eq_true, if_false] at h
      rw [h] at this
      exact this

/-- Witness of C3: with the latest snapshot `a###b`, `Write(k, "c")` answers
`["a", "b", "c"]` and the table becomes `a###b`, `a###b###c`. -/
theorem write_appends_snapshot_witness :
    (∃ prev, getFromDB noFaults ⟨["a###b"], fun _ => none⟩ = .ok prev ∧
      (ListPushHandler noFaults "k" "c" ⟨["a###b"], fun _ => none⟩).2.guestbooks
        = ["a###b"] ++ [Join (prev ++ ["c"]) separator]) ∧
    (ListPushHandler noFaults "k" "c" ⟨["a###b"], fun _ => none⟩).1 = .ok ["a", "b", "c"] ∧
    (ListPushHandler noFaults "k" "c" ⟨["a###b"], fun _ => none⟩).2.guestbooks
      = ["a###b", "a###b###c"] :=
  ⟨write_appends_snapshot noFaults "k" "c" ⟨["a###b"], fun _ => none⟩
    (ListPushHandler noFaults "k" "c" ⟨["a###b"], fun _ => none⟩).2 ["a", "b", "c"] rfl,
    by decide, by decide⟩

/-- C4: for every table, every cache and every key and value, `Write(key, value)` answers with
what `getFromDB` returns on the table after the insert, whatever list was cached for the key
before the write, and afterwards the cache list of the key is that same sequence. -/
theorem write_invalidates_cache (key value : String) (w : World) :
    ∃ prev resp w2,
      getFromDB noFaults w = .ok prev ∧
      ListPushHandler noFaults key value w = (.ok resp, w2) ∧
      w2.guestbooks = w.guestbooks ++ [Join (prev ++ [value]) separator] ∧
      getFromDB noFaults w2 = .ok resp ∧
      w2.cache key = some resp ∧
      cached w2 key = resp ∧
      ∀ c : String → Option (List String),
        (ListPushHandler noFaults key value ⟨w.guestbooks, c⟩).1 = .ok resp := by
  obtain ⟨prev, hp⟩ := getFromDB_noFaults w
  obtain ⟨h1, h2, h3, _⟩ := ListPushHandler_noFaults key value w prev hp
  refine ⟨prev, _, (ListPushHandler noFaults key value w).2, hp, ?_, h2, ?_, h3, ?_, ?_⟩
  · exact Prod.ext h1 rfl
  · exact getFromDB_snoc _ _ ⟨_, h2⟩
  · simp [cached, h3]
  · intro c
    have hp2 : getFromDB noFaults ⟨w.guestbooks, c⟩ = .ok prev := by
      rw [getFromDB_congr noFaults w ⟨w.guestbooks, c⟩ rfl]; exact hp
    exact (ListPushHandler_noFaults key value ⟨w.guestbooks, c⟩ prev hp2).1

/-- C5: when at least one entry of a sequence contains the separator `###`, inserting the
sequence with `writeToDB` and reading it back with `getFromDB` yields the split of its join,
which differs from the sequence and has strictly more elements. -/
theorem separator_collision (xs : List String) (w : World)
    (h : ∃ x ∈ xs, containsSeparator x) :
    ∃ w2 ys,
      writeToDB noFaults w xs = .ok w2 ∧
      getFromDB noFaults w2 = .ok ys ∧
      ys = Split (Join xs separator) separator ∧
      ys ≠ xs ∧
      xs.length < ys.length := by
  have hl := Split_Join_length xs h
  refine ⟨{ w with guestbooks := w.guestbooks ++ [Join xs separator] }, _, ?_,
    getFromDB_snoc _ _ ⟨w.guestbooks, rfl⟩, rfl, ?_, hl⟩
  · simp [writeToDB, noFaults]
  · intro e
    rw [e] at hl
    exact Nat.lt_irrefl _ hl

/-- Witness of C5: the sequence `a###b`, `c` comes back as `a`, `b`, `c`. -/
theorem separator_collision_witness :
    ∃ w2 ys,
      writeToDB noFaults emptyWorld ["a###b", "c"] = .ok w2 ∧
      getFromDB noFaults w2 = .ok ys ∧
      ys = Split (Join ["a###b", "c"] separator) separator ∧
      ys ≠ ["a###b", "c"] ∧
      ["a###b", "c"].length < ys.length :=
  separator_collision ["a###b", "c"] emptyWorld ⟨"a###b", by decide, by decide⟩

/-- C7: for every table, cache and key, two calls of `Read(key)` in immediate succession both
succeed and return the same sequence, also when the read pool is unreachable. -/
theorem read_idempotent (execErr slaveErr : Bool) (key : String) (w : World) :
    ∃ r w1 w2,
      ListRangeHandler ⟨false, false, execErr, slaveErr⟩ key w = (.ok r, w1) ∧
      ListRangeHandler ⟨false, false, execErr, slaveErr⟩ key w1 = (.ok r, w2) := by
  cases hA : All ⟨false, false, execErr, slaveErr⟩ w key with
  | ok members =>
    have := ListRangeHandler_hit _ key w members hA
    exact ⟨members, w, w, this, this⟩
  | error e =>
    obtain ⟨members, hg⟩ : ∃ members,
        getFromDB ⟨false, false, execErr, slaveErr⟩ w = .ok members :=
      ⟨_, getFromDB_ok _ w rfl rfl⟩
    exact ⟨members, _, _, ListRangeHandler_miss _ key w e members hA hg,
      Prod.ext (read_after_repopulate _ key w members hg) rfl⟩

/-- C8, as amended: `Read(key)` fails exactly when the cache read fails and `getFromDB` fails
too; a failed cache read with a working store gives a successful `Read`; on a successful cache
read `Read` returns the cached list and changes nothing, whatever the store adapters would do.
`Write(key, value)` fails exactly when its first `getFromDB` fails, the insert fails, or the
`getFromDB` of the delegated `Read`, made on the table with the new row, fails; in the first
two cases the table and the cache are left as they were, in the third the new row is in the
table, the cache list of the key is cleared and the other keys are untouched. -/
theorem only_cache_errors_recovered (f : Faults) (key value : String) (w : World) :
    ((∃ e, (ListRangeHandler f key w).1 = .error e) ↔
      ((∃ e, All f w key = .error e) ∧ (∃ e, getFromDB f w = .error e))) ∧
    (∀ members, getFromDB f w = .ok members → ∃ r, (ListRangeHandler f key w).1 = .ok r) ∧
    (∀ members, All f w key = .ok members →
      ∀ q s x, ListRangeHandler ⟨q, s, x, f.slaveErr⟩ key w = (.ok members, w)) ∧
    (((∃ e, getFromDB f w = .error e) ∨ f.execErr = true) →
      (∃ e, (ListPushHandler f key value w).1 = .error e) ∧
      (ListPushHandler f key value w).2 = w) ∧
    (∀ prev e, getFromDB f w = .ok prev → f.execErr = false →
      getFromDB f ⟨w.guestbooks ++ [Join (prev ++ [value]) separator], w.cache⟩ = .error e →
      (ListPushHandler f key value w).1 = .error e ∧
      (ListPushHandler f key value w).2.guestbooks
        = w.guestbooks ++ [Join (prev ++ [value]) separator] ∧
      (ListPushHandler f key value w).2.cache key = none ∧
      ∀ k, k ≠ key → (ListPushHandler f key value w).2.cache k = w.cache k) ∧
    ((∃ e, (ListPushHandler f key value w).1 = .error e) ↔
      ((∃ e, getFromDB f w = .error e) ∨ f.execErr = true ∨
        ∃ prev e, getFromDB f w = .ok prev ∧
          getFromDB f ⟨w.guestbooks ++ [Join (prev ++ [value]) separator], w.cache⟩
            = .error e)) := by
  have early : ((∃ e, getFromDB f w = .error e) ∨ f.execErr = true) →
      (∃ e, (ListPushHandler f key value w).1 = .error e) ∧
      (ListPushHandler f key value w).2 = w := by
    intro h
    unfold ListPushHandler
    cases hg : getFromDB f w with
    | error e => exact ⟨⟨e, rfl⟩, rfl⟩
    | ok prev =>
      rcases h with ⟨e, he⟩ | he
      · rw [hg] at he; cases he
      · simp [writeToDB, he]
  have late : ∀ prev e, getFromDB f w = .ok prev → f.execErr = false →
      getFromDB f ⟨w.guestbooks ++ [Join (prev ++ [value]) separator], w.cache⟩ = .error e →
      ListPushHandler f key value w
        = (.error e,
            Clear ⟨w.guestbooks ++ [Join (prev ++ [value]) separator], w.cache⟩ key) := by
    intro prev e hg hx he
    rw [ListPushHandler_delegate f key value w prev hg hx]
    exact (ListRangeHandler_cleared f key _ w.cache).1 e he
  refine ⟨?_, ?_, ?_, early, ?_, ?_⟩
  · unfold ListRangeHandler
    cases hA : All f w key with
    | ok members => simp
    | error e =>
      cases hg : getFromDB f w with
      | ok members => simp
      | error e2 => simp
  · intro members hg
    unfold ListRangeHandler
    cases hA : All f w key with
    | ok m => exact ⟨m, rfl⟩
    | error e => exact ⟨members, by simp [hg]⟩
  · intro members hA q s x
    apply ListRangeHandler_hit
    unfold All at hA ⊢
    exact hA
  · intro prev e hg hx he
    rw [late prev e hg hx he]
    refine ⟨rfl, rfl, by simp [Clear], ?_⟩
    intro k hk
    simp [Clear, hk]
  · constructor
    · intro hfail
      cases hg : getFromDB f w with
      | error e => exact Or.inl ⟨e, rfl⟩
      | ok prev =>
        cases hx : f.execErr with
        | true => exact Or.inr (Or.inl rfl)
        | false =>
          refine Or.inr (Or.inr ⟨prev, ?_⟩)
          cases h2 : getFromDB f
              ⟨w.guestbooks ++ [Join (prev ++ [value]) separator], w.cache⟩ with
          | error e => exact ⟨e, rfl, rfl⟩
          | ok members =>
            exfalso
            obtain ⟨e, he⟩ := hfail
            rw [ListPushHandler_delegate f key value w prev hg hx,
              (ListRangeHandler_cleared f key _ w.cache).2 members h2] at he
            cases he
    · intro h
      rcases h with h | h | ⟨prev, e, hg, he⟩
      · exact (early (Or.inl h)).1
      · exact (early (Or.inr h)).1
      · cases hx : f.execErr with
        | true => exact (early (Or.inr hx)).1
        | false => exact ⟨e, by rw [late prev e hg hx he]⟩

/-- Counterexample to C8 as stated: with `rows.Scan` failing, an empty table and the list
`["m"]` cached under `k`, the first `getFromDB` of `Write(k, "v")` finds no row and succeeds,
the insert succeeds, and the `getFromDB` of the delegated `Read` fails on the new row: `Write`
fails with the row `v` inserted and the cache list of `k` cleared, not left unchanged. -/
theorem only_cache_errors_recovered_fails :
    getFromDB ⟨false, true, false, false⟩
      ⟨[], fun k => if k = "k" then some ["m"] else none⟩ = .ok [] ∧
    (ListPushHandler ⟨false, true, false, false⟩ "k" "v"
      ⟨[], fun k => if k = "k" then some ["m"] else none⟩).1 = .error .failReadValues ∧
    getFromDB ⟨false, true, false, false⟩
      (ListPushHandler ⟨false, true, false, false⟩ "k" "v"
        ⟨[], fun k => if k = "k" then some ["m"] else none⟩).2 = .error .failReadValues ∧
    (ListPushHandler ⟨false, true, false, false⟩ "k" "v"
      ⟨[], fun k => if k = "k" then some ["m"] else none⟩).2.guestbooks = ["v"] ∧
    (ListPushHandler ⟨false, true, false, false⟩ "k" "v"
      ⟨[], fun k => if k = "k" then some ["m"] else none⟩).2.cache "k" = none ∧
    (ListPushHandler ⟨false, true, false, false⟩ "k" "v"
      ⟨[], fun k => if k = "k" then some ["m"] else none⟩).2.cache "k"
      ≠ (⟨[], fun k => if k = "k" then some ["m"] else none⟩ : World).cache "k" := by
  decide

/-- C9: for every table, value and keys `k1`, `k2`, `Write(k1, value)` and `Write(k2, value)`
insert the same row; and for `k2` different from `k1`, `Write(k1, value)` leaves the cached
list of `k2` as it was, so `Read(k2)` returns the response of the write when `k2` is absent
from the cache and the list cached before the write when it is present. -/
theorem key_names_only_cache (value k1 k2 : String) (w : World) :
    ∃ r1 w1 r2 w2 row,
      ListPushHandler noFaults k1 value w = (.ok r1, w1) ∧
      ListPushHandler noFaults k2 value w = (.ok r2, w2) ∧
      w1.guestbooks = w.guestbooks ++ [row] ∧
      w2.guestbooks = w.guestbooks ++ [row] ∧
      (k2 ≠ k1 →
        w1.cache k2 = w.cache k2 ∧
        (w.cache k2 = none → (ListRangeHandler noFaults k2 w1).1 = .ok r1) ∧
        (∀ l, w.cache k2 = some l → (ListRangeHandler noFaults k2 w1).1 = .ok l)) := by
  obtain ⟨prev, hp⟩ := getFromDB_noFaults w
  obtain ⟨a1, a2, a3, a4⟩ := ListPushHandler_noFaults k1 value w prev hp
  obtain ⟨b1, b2, _, _⟩ := ListPushHandler_noFaults k2 value w prev hp
  refine ⟨_, (ListPushHandler noFaults k1 value w).2, _,
    (ListPushHandler noFaults k2 value w).2, _, Prod.ext a1 rfl, Prod.ext b1 rfl, a2, b2, ?_⟩
  intro hk
  have hc := a4 k2 hk
  refine ⟨hc, ?_, ?_⟩
  · intro hn
    have hA : All noFaults (ListPushHandler noFaults k1 value w).2 k2 = .error .cacheMiss :=
      All_noFaults_none k2 _ (hc.trans hn)
    rw [ListRangeHandler_miss noFaults k2 _ _ _ hA (getFromDB_snoc _ _ ⟨_, a2⟩)]
  · intro l hl
    have hA : All noFaults (ListPushHandler noFaults k1 value w).2 k2 = .ok l :=
      All_noFaults_some k2 _ l (hc.trans hl)
    rw [ListRangeHandler_hit noFaults k2 _ _ hA]

/-- C10: for every non-empty sequence of entries none of which contains the character `#`,
splitting the `###`-join of the sequence on `###` returns the sequence itself; the join of the
empty sequence is the empty string, which splits into the one-element sequence `[""]`. -/
theorem separator_safe_region (xs : List String) (hne : xs ≠ [])
    (h : ∀ x ∈ xs, '#' ∉ x.data) :
    Split (Join xs separator) separator = xs ∧
    Join [] separator = "" ∧
    Split (Join [] separator) separator = [""] := by
  refine ⟨Split_Join xs hne ?_ ?_, rfl, by decide⟩
  · intro x hx
    exact not_infix_of_not_mem x.data (h x hx)
  · intro x hx he
    unfold endsWithHash at he
    exact h x (List.dropLast_subset xs hx) (List.mem_of_getLast?_eq_some he)

/-- Witness of C10: the entries `a`, the empty entry and `b c` survive the join and the
split. -/
theorem separator_safe_region_witness :
    Split (Join ["a", "", "b c"] separator) separator = ["a", "", "b c"] ∧
    Join [] separator = "" ∧
    Split (Join [] separator) separator = [""] :=
  separator_safe_region ["a", "", "b c"] (by decide) (by decide)

/-- C6: for every list of environment items whose names (the text before the first `=`) are
pairwise distinct, `EnvHandler` builds a map with exactly one key per item, in which the key
of each item is the text before its first `=` and the value is the whole text after that
first `=`; for an item containing `=`, key, `=` and value concatenate to the item, and no key
contains `=`. -/
theorem env_handler_complete (items : List String)
    (h : (items.map textBeforeFirstEq).Nodup) :
    ∃ env, EnvHandler items = .ok env ∧
      env = items.map (fun it => (textBeforeFirstEq it, textAfterFirstEq it)) ∧
      env.length = items.length ∧
      (env.map Prod.fst).Nodup ∧
      (∀ it ∈ items, EnvMap.get env (textBeforeFirstEq it) = some (textAfterFirstEq it)) ∧
      (∀ it ∈ items, '=' ∈ it.data →
        textBeforeFirstEq it ++ "=" ++ textAfterFirstEq it = it) ∧
      (∀ it ∈ items, '=' ∉ (textBeforeFirstEq it).data) := by
  refine ⟨_, ?_, rfl, by simp, ?_, EnvMap.get_pairs items h,
    fun it _ hi => before_eq_after it hi, fun it _ => before_no_eq_sign it⟩
  · unfold EnvHandler
    rw [foldlM_envItem items [] h (by simp)]
    simp
  · simpa [List.map_map, Function.comp_def] using h

/-- Witness of C6: the items `A=b=c`, `B` and `C=` give the keys `A`, `B`, `C` with the values
`b=c`, the empty string and the empty string. -/
theorem env_handler_complete_witness :
    ∃ env, EnvHandler ["A=b=c", "B", "C="] = .ok env ∧
      env = ["A=b=c", "B", "C="].map (fun it => (textBeforeFirstEq it, textAfterFirstEq it)) ∧
      env.length = ["A=b=c", "B", "C="].length ∧
      (env.map Prod.fst).Nodup ∧
      (∀ it ∈ ["A=b=c", "B", "C="],
        EnvMap.get env (textBeforeFirstEq it) = some (textAfterFirstEq it)) ∧
      (∀ it ∈ ["A=b=c", "B", "C="], '=' ∈ it.data →
        textBeforeFirstEq it ++ "=" ++ textAfterFirstEq it = it) ∧
      (∀ it ∈ ["A=b=c", "B", "C="], '=' ∉ (textBeforeFirstEq it).data) :=
  env_handler_complete ["A=b=c", "B", "C="] (by decide)

end Guestbook
